import Mathlib

/-!
Verification of the differentiable-circuit evaluation engine described by the
repository's specification, together with the concrete circuits defined in the
notebook `src/Lecture14Notebook/PennyLane tutorial.ipynb`.

The notebook itself only *calls* the engine (PennyLane's simulator,
parameter-shift differentiator and gradient-descent optimizer); the engine's
code is not part of the repository.  Following the specification, the engine is
modelled here from the spec's own description (State Simulator, Circuit
Representation, Parameter-Shift Differentiator, Gradient-Descent Optimizer),
while every concrete circuit, cost function and constant is translated from the
notebook source.

A basis state of an `n`-wire register is an index `i < 2 ^ n`; the bit of `i`
at position `w` is the value of wire `w` (the spec's "bit w" convention for
Pauli-Z expectation values).
-/

open Finset Complex

namespace QML

/-- The bit of wire `w` in basis-state index `i`: `(i / 2 ^ w) % 2 = 1`. -/
def bitOf (w i : ℕ) : Bool :=
  decide (i / 2 ^ w % 2 = 1)

/-- Basis-state index `i` with the bit of wire `w` replaced by `b`. -/
def setBit (w i : ℕ) (b : Bool) : ℕ :=
  i % 2 ^ w + 2 ^ w * b.toNat + 2 ^ (w + 1) * (i / 2 ^ (w + 1))

/-- Remainder of the canonical decomposition `lo + 2^w * t + 2^(w+1) * hi`. -/
lemma decomp_mod {w lo : ℕ} (t hi : ℕ) (hlo : lo < 2 ^ w) :
    (lo + 2 ^ w * t + 2 ^ (w + 1) * hi) % 2 ^ w = lo := by
  have h1 : lo + 2 ^ w * t + 2 ^ (w + 1) * hi = lo + 2 ^ w * (t + 2 * hi) := by
    rw [pow_succ]; ring
  rw [h1, Nat.add_mul_mod_self_left, Nat.mod_eq_of_lt hlo]

/-- Quotient by `2^w` of the canonical decomposition. -/
lemma decomp_div {w lo : ℕ} (t hi : ℕ) (hlo : lo < 2 ^ w) :
    (lo + 2 ^ w * t + 2 ^ (w + 1) * hi) / 2 ^ w = t + 2 * hi := by
  have h1 : lo + 2 ^ w * t + 2 ^ (w + 1) * hi = lo + 2 ^ w * (t + 2 * hi) := by
    rw [pow_succ]; ring
  rw [h1, Nat.add_mul_div_left _ _ (Nat.pos_pow_of_pos w (by norm_num)),
    Nat.div_eq_of_lt hlo, Nat.zero_add]

/-- Quotient by `2^(w+1)` of the canonical decomposition, for `t ≤ 1`. -/
lemma decomp_div2 {w lo t : ℕ} (hi : ℕ) (hlo : lo < 2 ^ w) (ht : t ≤ 1) :
    (lo + 2 ^ w * t + 2 ^ (w + 1) * hi) / 2 ^ (w + 1) = hi := by
  have hlt : lo + 2 ^ w * t < 2 ^ (w + 1) := by
    have : 2 ^ w * t ≤ 2 ^ w * 1 := Nat.mul_le_mul_left _ ht
    rw [pow_succ]; omega
  rw [Nat.add_mul_div_left _ _ (Nat.pos_pow_of_pos (w + 1) (by norm_num)),
    Nat.div_eq_of_lt hlt, Nat.zero_add]

/-- Reading the wire-`w` bit of a canonically decomposed index. -/
lemma bitOf_decomp {w lo : ℕ} (b : Bool) (hi : ℕ) (hlo : lo < 2 ^ w) :
    bitOf w (lo + 2 ^ w * b.toNat + 2 ^ (w + 1) * hi) = b := by
  unfold bitOf
  rw [decomp_div b.toNat hi hlo]
  cases b <;> simp [Nat.add_mul_mod_self_left]

/-- Setting the wire-`w` bit of a canonically decomposed index. -/
lemma setBit_decomp {w lo : ℕ} (b b' : Bool) (hi : ℕ) (hlo : lo < 2 ^ w) :
    setBit w (lo + 2 ^ w * b.toNat + 2 ^ (w + 1) * hi) b'
      = lo + 2 ^ w * b'.toNat + 2 ^ (w + 1) * hi := by
  unfold setBit
  rw [decomp_mod b.toNat hi hlo, decomp_div2 hi hlo (Bool.toNat_le b)]

/-- `setBit` composed with itself at the same wire keeps only the last bit. -/
lemma setBit_setBit (w i : ℕ) (b b' : Bool) :
    setBit w (setBit w i b) b' = setBit w i b' := by
  have h := @setBit_decomp w (i % 2 ^ w) b b' (i / 2 ^ (w + 1))
    (Nat.mod_lt _ (Nat.pos_pow_of_pos w (by norm_num)))
  simpa [setBit] using h

/-- Reading back the bit just written by `setBit`. -/
lemma bitOf_setBit (w i : ℕ) (b : Bool) : bitOf w (setBit w i b) = b := by
  have h := @bitOf_decomp w (i % 2 ^ w) b (i / 2 ^ (w + 1))
    (Nat.mod_lt _ (Nat.pos_pow_of_pos w (by norm_num)))
  simpa [setBit] using h

/-- Writing back the bit a position already holds is the identity. -/
lemma setBit_bitOf (w i : ℕ) : setBit w i (bitOf w i) = i := by
  have htoNat : (bitOf w i).toNat = i / 2 ^ w % 2 := by
    unfold bitOf
    have hmod2 : i / 2 ^ w % 2 = 0 ∨ i / 2 ^ w % 2 = 1 := by omega
    rcases hmod2 with h | h <;> simp [h]
  unfold setBit
  rw [htoNat]
  have hdiv : i / 2 ^ (w + 1) = i / 2 ^ w / 2 := by
    rw [Nat.div_div_eq_div_mul, pow_succ]
  rw [hdiv, pow_succ]
  calc i % 2 ^ w + 2 ^ w * (i / 2 ^ w % 2) + 2 ^ w * 2 * (i / 2 ^ w / 2)
      = i % 2 ^ w + 2 ^ w * (i / 2 ^ w % 2 + 2 * (i / 2 ^ w / 2)) := by ring
    _ = i % 2 ^ w + 2 ^ w * (i / 2 ^ w) := by rw [Nat.mod_add_div]
    _ = i := Nat.mod_add_div i (2 ^ w)

/-- `setBit` stays below `2 ^ n` when the wire is in range. -/
lemma setBit_lt {n w i : ℕ} (hw : w < n) (hi : i < 2 ^ n) (b : Bool) :
    setBit w i b < 2 ^ n := by
  have hpow : 2 ^ n = 2 ^ (w + 1) * 2 ^ (n - w - 1) := by
    rw [← pow_add]
    congr 1
    omega
  have hlo : i % 2 ^ w < 2 ^ w := Nat.mod_lt _ (Nat.pos_pow_of_pos w (by norm_num))
  have hhi : i / 2 ^ (w + 1) < 2 ^ (n - w - 1) := by
    rw [Nat.div_lt_iff_lt_mul (Nat.pos_pow_of_pos (w + 1) (by norm_num))]
    calc i < 2 ^ n := hi
    _ = 2 ^ (n - w - 1) * 2 ^ (w + 1) := by rw [hpow]; ring
  have hlo2 : i % 2 ^ w < 2 ^ w := Nat.mod_lt _ (Nat.pos_pow_of_pos w (by norm_num))
  have hb : 2 ^ w * b.toNat ≤ 2 ^ w := by
    calc 2 ^ w * b.toNat ≤ 2 ^ w * 1 := Nat.mul_le_mul_left _ (Bool.toNat_le b)
      _ = 2 ^ w := mul_one _
  have hsucc : 2 ^ (w + 1) * (i / 2 ^ (w + 1) + 1)
      = 2 ^ (w + 1) * (i / 2 ^ (w + 1)) + 2 ^ (w + 1) := Nat.mul_succ _ _
  have h2 : 2 ^ (w + 1) * (i / 2 ^ (w + 1) + 1) ≤ 2 ^ (w + 1) * 2 ^ (n - w - 1) :=
    Nat.mul_le_mul_left _ hhi
  have hw1 : 2 ^ (w + 1) = 2 * 2 ^ w := by rw [pow_succ]; ring
  have hfin : 2 ^ (w + 1) * 2 ^ (n - w - 1) = 2 ^ n := hpow.symm
  unfold setBit
  omega

/-- Bits at other wires are untouched by `setBit`. -/
lemma bitOf_setBit_ne {v w : ℕ} (hvw : v ≠ w) (i : ℕ) (b : Bool) :
    bitOf v (setBit w i b) = bitOf v i := by
  rcases Nat.lt_or_ge v w with hlt | hge
  · -- v < w : both indices have the same residue modulo 2 ^ w,
    -- and bit v only depends on that residue.
    have key : ∀ j : ℕ, j % 2 ^ w = i % 2 ^ w → bitOf v j = bitOf v i := by
      intro j hj
      unfold bitOf
      have hvpow : 2 ^ w = 2 ^ v * 2 ^ (w - v) := by
        rw [← pow_add]
        congr 1
        omega
      have hdecomp : ∀ m : ℕ, m / 2 ^ v % 2 = m % 2 ^ w / 2 ^ v % 2 := by
        intro m
        conv_lhs => rw [← Nat.mod_add_div m (2 ^ w)]
        rw [hvpow, mul_assoc, Nat.add_mul_div_left _ _ (Nat.pos_pow_of_pos v (by norm_num))]
        have hwv : 2 ^ (w - v) * (m / (2 ^ v * 2 ^ (w - v))) =
            2 * (2 ^ (w - v - 1) * (m / (2 ^ v * 2 ^ (w - v)))) := by
          have : 2 ^ (w - v) = 2 * 2 ^ (w - v - 1) := by
            rw [← pow_succ']
            congr 1
            omega
          rw [this]; ring
        rw [hwv, Nat.add_mul_mod_self_left]
      rw [hdecomp j, hdecomp i, hj]
    apply key
    unfold setBit
    exact decomp_mod _ _ (Nat.mod_lt _ (Nat.pos_pow_of_pos w (by norm_num)))
  · -- v > w : both indices have the same quotient by 2 ^ (w+1),
    -- and bit v only depends on that quotient.
    have hvw1 : w + 1 ≤ v := by omega
    have hq : setBit w i b / 2 ^ (w + 1) = i / 2 ^ (w + 1) := by
      unfold setBit
      exact decomp_div2 _ (Nat.mod_lt _ (Nat.pos_pow_of_pos w (by norm_num)))
        (Bool.toNat_le b)
    unfold bitOf
    have hsplit : ∀ m : ℕ, m / 2 ^ v = m / 2 ^ (w + 1) / 2 ^ (v - w - 1) := by
      intro m
      rw [Nat.div_div_eq_div_mul, ← pow_add]
      congr 2
      omega
    rw [hsplit (setBit w i b), hsplit i, hq]

/-- Splitting `∑ i in range (a * b)` into blocks of length `a`. -/
lemma sum_range_mul_blocks {M : Type*} [AddCommMonoid M] (F : ℕ → M) (a b : ℕ) :
    ∑ i ∈ Finset.range (a * b), F i
      = ∑ p ∈ Finset.range b, ∑ q ∈ Finset.range a, F (a * p + q) := by
  induction b with
  | zero => simp
  | succ m ih =>
      rw [Nat.mul_succ, Finset.sum_range_add, ih, Finset.sum_range_succ]

/-- Splitting a sum over all `n`-wire basis states along the bit of wire `w`:
every index is uniquely `lo + 2^w * t + 2^(w+1) * hi` with `lo < 2^w`,
`t ∈ {0, 1}`, `hi < 2^(n-w-1)`. -/
lemma sum_range_two_pow_split {M : Type*} [AddCommMonoid M] (F : ℕ → M)
    {w n : ℕ} (hw : w < n) :
    ∑ i ∈ Finset.range (2 ^ n), F i
      = ∑ hi ∈ Finset.range (2 ^ (n - w - 1)), ∑ lo ∈ Finset.range (2 ^ w),
          (F (lo + 2 ^ (w + 1) * hi) + F (lo + 2 ^ w + 2 ^ (w + 1) * hi)) := by
  have hpow : 2 ^ n = 2 ^ (w + 1) * 2 ^ (n - w - 1) := by
    rw [← pow_add]
    congr 1
    omega
  rw [hpow, sum_range_mul_blocks]
  refine Finset.sum_congr rfl fun hi _ => ?_
  have hsplit : (2:ℕ) ^ (w + 1) = 2 ^ w * 2 := by rw [pow_succ]
  have h2 : ∑ q ∈ Finset.range (2 ^ (w + 1)), F (2 ^ (w + 1) * hi + q)
      = ∑ p ∈ Finset.range 2, ∑ lo ∈ Finset.range (2 ^ w),
          F (2 ^ (w + 1) * hi + (2 ^ w * p + lo)) := by
    rw [hsplit, sum_range_mul_blocks]
  rw [h2]
  rw [Finset.sum_range_succ, Finset.sum_range_succ, Finset.sum_range_zero,
    Finset.sum_add_distrib]
  congr 1
  · rw [zero_add]
    refine Finset.sum_congr rfl fun lo _ => ?_
    congr 1
    ring
  · refine Finset.sum_congr rfl fun lo _ => ?_
    congr 1
    ring

/-! ## State Simulator (modelled from the spec)

Modelled from the spec: the State Simulator component (spec §4.1) is not part
of the repository's source (the notebook delegates simulation to the external
library), so it is reconstructed here from the specification's description:
a register is "a complex vector of length 2^n"; a single-qubit gate acts by
"unitary matrix multiplication against the full state vector"; controlled-NOT
acts "by indexing basis states whose control-bit pattern matches, leaving
uncontrolled amplitudes unchanged and swapping target-bit amplitude pairs
otherwise"; the Pauli-Z expectation on wire `w` is "the sum over basis states
of |amplitude|² weighted by +1 if bit w is 0 and −1 if bit w is 1".

Amplitudes are indexed by `ℕ`; only indices below `2 ^ n` are meaningful, and
every sum ranges over exactly those `2 ^ n` basis states. -/

/-- The amplitudes of an `n`-wire register (indices `< 2 ^ n` meaningful). -/
abbrev QState := ℕ → ℂ

/-- The all-zero basis state: amplitude 1 at index 0, 0 elsewhere. -/
def initState : QState := fun i => if i = 0 then 1 else 0

/-- A single-qubit (2 × 2) complex matrix, indexed by row and column bits. -/
abbrev Mat2 := Bool → Bool → ℂ

/-- Matrix product of two single-qubit matrices. -/
def mul2 (g h : Mat2) : Mat2 :=
  fun r c => g r false * h false c + g r true * h true c

/-- The 2 × 2 identity matrix. -/
def id2 : Mat2 := fun r c => if r = c then 1 else 0

/-- Apply a single-qubit gate `g` to wire `w` of the register:
matrix multiplication on the wire-`w` tensor factor. -/
def apply1 (g : Mat2) (w : ℕ) (ψ : QState) : QState :=
  fun i => g (bitOf w i) false * ψ (setBit w i false)
         + g (bitOf w i) true * ψ (setBit w i true)

/-- Apply a controlled-NOT with control wire `c` and target wire `t`:
amplitudes with the control bit clear are unchanged, the others have the
target-bit pair swapped. -/
def applyCNOT (c t : ℕ) (ψ : QState) : QState :=
  fun i => if bitOf c i then ψ (setBit t i (!bitOf t i)) else ψ i

/-- Squared norm of the register: the sum of `|amplitude|²` over all
`2 ^ n` basis states. -/
def stateNormSq (n : ℕ) (ψ : QState) : ℝ :=
  ∑ i ∈ Finset.range (2 ^ n), Complex.normSq (ψ i)

/-- Pauli-Z expectation value on wire `wz`: `|amplitude|²` weighted by `+1`
when bit `wz` is 0 and `−1` when bit `wz` is 1. -/
def expvalZ (n wz : ℕ) (ψ : QState) : ℝ :=
  ∑ i ∈ Finset.range (2 ^ n), (if bitOf wz i then -1 else 1) * Complex.normSq (ψ i)

/-- A 2 × 2 matrix is unitary: its columns are orthonormal. -/
def Unitary2 (g : Mat2) : Prop :=
  ∀ a b : Bool,
    (starRingEnd ℂ) (g false a) * g false b + (starRingEnd ℂ) (g true a) * g true b
      = if a = b then 1 else 0

/-- The identity is unitary. -/
lemma unitary2_id2 : Unitary2 id2 := by
  intro a b
  cases a <;> cases b <;> simp [id2]

/-- Unitarity is preserved by matrix product. -/
lemma unitary2_mul2 {g h : Mat2} (hg : Unitary2 g) (hh : Unitary2 h) :
    Unitary2 (mul2 g h) := by
  intro a b
  have gFF := hg false false
  have gFT := hg false true
  have gTF := hg true false
  have gTT := hg true true
  have hab := hh a b
  norm_num at gFF gFT gTF gTT
  simp only [mul2, map_add, map_mul]
  cases a <;> cases b <;>
    simp only [if_true, if_false, Bool.false_eq_true, Bool.true_eq_false,
      eq_self_iff_true, reduceIte] at hab ⊢ <;>
    linear_combination
      ((starRingEnd ℂ) (h false _) * h false _) * gFF
      + ((starRingEnd ℂ) (h false _) * h true _) * gFT
      + ((starRingEnd ℂ) (h true _) * h false _) * gTF
      + ((starRingEnd ℂ) (h true _) * h true _) * gTT
      + hab

/-- Key 2-dimensional fact: a unitary 2 × 2 matrix preserves the squared norm
of an amplitude pair. -/
lemma unitary2_pair {g : Mat2} (hg : Unitary2 g) (x y : ℂ) :
    Complex.normSq (g false false * x + g false true * y)
      + Complex.normSq (g true false * x + g true true * y)
      = Complex.normSq x + Complex.normSq y := by
  have gFF := hg false false
  have gFT := hg false true
  have gTF := hg true false
  have gTT := hg true true
  norm_num at gFF gFT gTF gTT
  have key : (g false false * x + g false true * y)
        * (starRingEnd ℂ) (g false false * x + g false true * y)
      + (g true false * x + g true true * y)
        * (starRingEnd ℂ) (g true false * x + g true true * y)
      = x * (starRingEnd ℂ) x + y * (starRingEnd ℂ) y := by
    simp only [map_add, map_mul]
    linear_combination (x * (starRingEnd ℂ) x) * gFF + (y * (starRingEnd ℂ) y) * gTT
      + (y * (starRingEnd ℂ) x) * gFT + (x * (starRingEnd ℂ) y) * gTF
  have hcast := key
  rw [Complex.mul_conj, Complex.mul_conj, Complex.mul_conj, Complex.mul_conj] at hcast
  exact_mod_cast hcast

/-- Applying a unitary single-qubit gate inside the register window preserves
the squared norm of the register. -/
lemma stateNormSq_apply1 {n w : ℕ} (hw : w < n) {g : Mat2} (hg : Unitary2 g)
    (ψ : QState) : stateNormSq n (apply1 g w ψ) = stateNormSq n ψ := by
  unfold stateNormSq
  rw [sum_range_two_pow_split (fun i => Complex.normSq (apply1 g w ψ i)) hw,
    sum_range_two_pow_split (fun i => Complex.normSq (ψ i)) hw]
  refine Finset.sum_congr rfl fun hi _ => Finset.sum_congr rfl fun lo hlo => ?_
  rw [Finset.mem_range] at hlo
  have h0 : lo + 2 ^ (w + 1) * hi
      = lo + 2 ^ w * (false : Bool).toNat + 2 ^ (w + 1) * hi := by simp
  have h1 : lo + 2 ^ w + 2 ^ (w + 1) * hi
      = lo + 2 ^ w * (true : Bool).toNat + 2 ^ (w + 1) * hi := by simp
  have e0 : apply1 g w ψ (lo + 2 ^ (w + 1) * hi)
      = g false false * ψ (lo + 2 ^ (w + 1) * hi)
        + g false true * ψ (lo + 2 ^ w + 2 ^ (w + 1) * hi) := by
    unfold apply1
    rw [h0, bitOf_decomp false hi hlo, setBit_decomp false false hi hlo,
      setBit_decomp false true hi hlo]
    simp
  have e1 : apply1 g w ψ (lo + 2 ^ w + 2 ^ (w + 1) * hi)
      = g true false * ψ (lo + 2 ^ (w + 1) * hi)
        + g true true * ψ (lo + 2 ^ w + 2 ^ (w + 1) * hi) := by
    unfold apply1
    rw [h1, bitOf_decomp true hi hlo, setBit_decomp true false hi hlo,
      setBit_decomp true true hi hlo]
    simp
  rw [e0, e1]
  exact unitary2_pair hg _ _

/-- The controlled-NOT permutes basis states, hence preserves the squared
norm, provided control and target are distinct in-range wires. -/
lemma stateNormSq_applyCNOT {n c t : ℕ} (hc : c < n) (ht : t < n) (hct : c ≠ t)
    (ψ : QState) : stateNormSq n (applyCNOT c t ψ) = stateNormSq n ψ := by
  unfold stateNormSq applyCNOT
  have hσ : ∀ i : ℕ, i < 2 ^ n →
      (if bitOf c i then setBit t i (!bitOf t i) else i) < 2 ^ n := by
    intro i hi
    by_cases h : bitOf c i
    · simpa [h] using setBit_lt ht hi (!bitOf t i)
    · simpa [h] using hi
  have hinv : ∀ i : ℕ,
      (fun j => if bitOf c j then setBit t j (!bitOf t j) else j)
        ((fun j => if bitOf c j then setBit t j (!bitOf t j) else j) i) = i := by
    intro i
    by_cases h : bitOf c i
    · simp only [h, if_true]
      have hc' : bitOf c (setBit t i (!bitOf t i)) = true := by
        rw [bitOf_setBit_ne hct]; exact h
      rw [hc', if_pos rfl, bitOf_setBit, Bool.not_not, setBit_setBit, setBit_bitOf]
    · simp only [h]
      simp only [Bool.false_eq_true, if_false]
      rw [if_neg (by simp [h])]
  refine Finset.sum_nbij'
    (fun i => if bitOf c i then setBit t i (!bitOf t i) else i)
    (fun i => if bitOf c i then setBit t i (!bitOf t i) else i)
    ?_ ?_ ?_ ?_ ?_
  · intro a ha
    rw [Finset.mem_range] at ha ⊢
    exact hσ a ha
  · intro a ha
    rw [Finset.mem_range] at ha ⊢
    exact hσ a ha
  · intro a _
    exact hinv a
  · intro a _
    exact hinv a
  · intro a _
    by_cases h : bitOf c a <;> simp [h]

/-! ## Gate matrices

Closed-form matrices of the spec's gate set (spec §3, §4.1), e.g.
`RX(θ) = cos(θ/2)·I − i·sin(θ/2)·X`. -/

noncomputable section

/-- Rotation about the X axis: `RX(θ) = cos(θ/2)·I − i·sin(θ/2)·X`. -/
def rxMat (θ : ℝ) : Mat2 := fun r c =>
  if r = c then (Real.cos (θ / 2) : ℂ)
  else -(Complex.I * (Real.sin (θ / 2) : ℂ))

/-- Rotation about the Y axis. -/
def ryMat (θ : ℝ) : Mat2 := fun r c =>
  match r, c with
  | false, false => (Real.cos (θ / 2) : ℂ)
  | false, true => -(Real.sin (θ / 2) : ℂ)
  | true, false => (Real.sin (θ / 2) : ℂ)
  | true, true => (Real.cos (θ / 2) : ℂ)

/-- Rotation about the Z axis: `diag(e^(−iθ/2), e^(iθ/2))`. -/
def rzMat (θ : ℝ) : Mat2 := fun r c =>
  match r, c with
  | false, false => Complex.exp ((-(θ / 2) : ℝ) * Complex.I)
  | true, true => Complex.exp (((θ / 2) : ℝ) * Complex.I)
  | _, _ => 0

/-- The Hadamard gate. -/
def hadMat : Mat2 := fun r c =>
  if r && c then -(((Real.sqrt 2)⁻¹ : ℝ) : ℂ) else (((Real.sqrt 2)⁻¹ : ℝ) : ℂ)

/-- The Pauli-X gate. -/
def pxMat : Mat2 := fun r c => if r = c then 0 else 1

/-- The Pauli-Y gate. -/
def pyMat : Mat2 := fun r c =>
  match r, c with
  | false, true => -Complex.I
  | true, false => Complex.I
  | _, _ => 0

/-- The Pauli-Z gate. -/
def pzMat : Mat2 := fun r c =>
  match r, c with
  | false, false => 1
  | true, true => -1
  | _, _ => 0

/-- The phase-shift gate: `diag(1, e^(iθ))`. -/
def phaseMat (θ : ℝ) : Mat2 := fun r c =>
  match r, c with
  | false, false => 1
  | true, true => Complex.exp ((θ : ℝ) * Complex.I)
  | _, _ => 0

/-- The composite three-angle rotation: `Rot(φ,θ,ω) = RZ(ω)·RY(θ)·RZ(φ)`. -/
def rotMat (φ θ ω : ℝ) : Mat2 := mul2 (rzMat ω) (mul2 (ryMat θ) (rzMat φ))

lemma unitary2_rxMat (θ : ℝ) : Unitary2 (rxMat θ) := by
  intro a b
  have hcast : ((Real.sin (θ / 2) : ℂ)) ^ 2 + ((Real.cos (θ / 2) : ℂ)) ^ 2 = 1 := by
    rw [← Complex.ofReal_pow, ← Complex.ofReal_pow, ← Complex.ofReal_add,
      Real.sin_sq_add_cos_sq, Complex.ofReal_one]
  cases a <;> cases b <;>
    simp only [rxMat, Bool.false_eq_true, Bool.true_eq_false, reduceIte, map_mul,
      map_neg, Complex.conj_I, Complex.conj_ofReal]
  · linear_combination hcast - ((Real.sin (θ / 2) : ℂ)) ^ 2 * Complex.I_sq
  · ring
  · ring
  · linear_combination hcast - ((Real.sin (θ / 2) : ℂ)) ^ 2 * Complex.I_sq

lemma unitary2_ryMat (θ : ℝ) : Unitary2 (ryMat θ) := by
  intro a b
  have hcast : ((Real.sin (θ / 2) : ℂ)) ^ 2 + ((Real.cos (θ / 2) : ℂ)) ^ 2 = 1 := by
    rw [← Complex.ofReal_pow, ← Complex.ofReal_pow, ← Complex.ofReal_add,
      Real.sin_sq_add_cos_sq, Complex.ofReal_one]
  cases a <;> cases b <;>
    simp only [ryMat, Bool.false_eq_true, Bool.true_eq_false, reduceIte, map_neg,
      Complex.conj_ofReal]
  · linear_combination hcast
  · ring
  · ring
  · linear_combination hcast

lemma conj_exp_mul_I (x : ℝ) :
    (starRingEnd ℂ) (Complex.exp ((x : ℝ) * Complex.I))
      * Complex.exp ((x : ℝ) * Complex.I) = 1 := by
  rw [← Complex.exp_conj, ← Complex.exp_add]
  have h0 : (starRingEnd ℂ) ((x : ℝ) * Complex.I) + (x : ℝ) * Complex.I = 0 := by
    rw [map_mul, Complex.conj_I, Complex.conj_ofReal]
    ring
  rw [h0, Complex.exp_zero]

lemma unitary2_rzMat (θ : ℝ) : Unitary2 (rzMat θ) := by
  intro a b
  cases a <;> cases b
  · simpa [rzMat] using conj_exp_mul_I (-(θ / 2))
  · simp [rzMat]
  · simp [rzMat]
  · simpa [rzMat] using conj_exp_mul_I (θ / 2)

lemma unitary2_hadMat : Unitary2 hadMat := by
  intro a b
  have hR : (Real.sqrt 2)⁻¹ * (Real.sqrt 2)⁻¹ = 1 / 2 := by
    rw [← mul_inv, Real.mul_self_sqrt (by norm_num)]
    norm_num
  have h2 : (((Real.sqrt 2)⁻¹ : ℝ) : ℂ) * (((Real.sqrt 2)⁻¹ : ℝ) : ℂ) = 1 / 2 := by
    rw [← Complex.ofReal_mul, hR]
    norm_num
  cases a <;> cases b <;>
    simp only [hadMat, Bool.and_false, Bool.and_true, Bool.false_and, Bool.true_and,
      Bool.false_eq_true, Bool.true_eq_false, reduceIte, map_neg, Complex.conj_ofReal]
  · linear_combination 2 * h2
  · ring
  · ring
  · linear_combination 2 * h2

lemma unitary2_pxMat : Unitary2 pxMat := by
  intro a b
  cases a <;> cases b <;> simp [pxMat]

lemma unitary2_pyMat : Unitary2 pyMat := by
  intro a b
  cases a <;> cases b <;> simp [pyMat, Complex.conj_I]

lemma unitary2_pzMat : Unitary2 pzMat := by
  intro a b
  cases a <;> cases b <;> simp [pzMat]

lemma unitary2_phaseMat (θ : ℝ) : Unitary2 (phaseMat θ) := by
  intro a b
  cases a <;> cases b
  · simp [phaseMat]
  · simp [phaseMat]
  · simp [phaseMat]
  · simpa [phaseMat] using conj_exp_mul_I θ

lemma unitary2_rotMat (φ θ ω : ℝ) : Unitary2 (rotMat φ θ ω) :=
  unitary2_mul2 (unitary2_rzMat ω) (unitary2_mul2 (unitary2_ryMat θ) (unitary2_rzMat φ))

/-- Two single-qubit gates on the same wire compose by matrix product. -/
lemma apply1_apply1 (g h : Mat2) (w : ℕ) (ψ : QState) :
    apply1 g w (apply1 h w ψ) = apply1 (mul2 g h) w ψ := by
  funext i
  unfold apply1 mul2
  rw [bitOf_setBit, bitOf_setBit, setBit_setBit, setBit_setBit,
    setBit_setBit, setBit_setBit]
  ring

/-- The identity matrix acts as the identity on states. -/
lemma apply1_id2 (w : ℕ) (ψ : QState) : apply1 id2 w ψ = ψ := by
  funext i
  unfold apply1 id2
  rcases hbit : bitOf w i with _ | _
  · simp only [Bool.false_eq_true, Bool.true_eq_false, reduceIte, one_mul, zero_mul,
      add_zero]
    rw [← hbit, setBit_bitOf]
  · simp only [Bool.false_eq_true, Bool.true_eq_false, reduceIte, one_mul, zero_mul,
      zero_add]
    rw [← hbit, setBit_bitOf]

/-! ## Circuit Representation, Differentiator and Optimizer
(modelled from the spec) -/

/-- Rotation axes of the single-parameter rotation gates. -/
inductive RotAxis where
  | X
  | Y
  | Z
deriving DecidableEq

/-- Modelled from the spec: the Gate data model (spec §3), which the
repository's source only uses through the external library: "a tagged variant
over {single-qubit rotation about X/Y/Z axis, Hadamard, Pauli-X/Y/Z,
controlled-NOT, phase shift, composite three-angle rotation}", each carrying
its wire index (or indices) and free-parameter slot references (positional). -/
inductive Gate where
  | rotation (ax : RotAxis) (w : ℕ) (p : ℕ)
  | hadamard (w : ℕ)
  | pauliX (w : ℕ)
  | pauliY (w : ℕ)
  | pauliZ (w : ℕ)
  | cnot (c t : ℕ)
  | phaseShift (w : ℕ) (p : ℕ)
  | rot3 (w : ℕ) (p1 p2 p3 : ℕ)
deriving DecidableEq

/-- Modelled from the spec: the Circuit data model (spec §3): "an ordered
sequence of Gates ... plus a single designated Observable and target wire for
measurement"; every circuit in the notebook measures Pauli-Z, on `obsWire`.
`params` is the circuit's number of free-parameter slots. -/
structure Circuit where
  wires : ℕ
  params : ℕ
  gates : List Gate
  obsWire : ℕ

/-- The matrix of a single-parameter rotation gate about the given axis. -/
def rotAxisMat : RotAxis → ℝ → Mat2
  | RotAxis.X => rxMat
  | RotAxis.Y => ryMat
  | RotAxis.Z => rzMat

/-- The unitary action of one gate on the register, reading free parameters
from the valuation `v` of the circuit's parameter slots. -/
def Gate.apply (v : ℕ → ℝ) : Gate → QState → QState
  | rotation ax w p => apply1 (rotAxisMat ax (v p)) w
  | hadamard w => apply1 hadMat w
  | pauliX w => apply1 pxMat w
  | pauliY w => apply1 pyMat w
  | pauliZ w => apply1 pzMat w
  | cnot c t => applyCNOT c t
  | phaseShift w p => apply1 (phaseMat (v p)) w
  | rot3 w p1 p2 p3 => apply1 (rotMat (v p1) (v p2) (v p3)) w

/-- Well-formedness of one gate inside an `n`-wire, `m`-slot circuit: wire
indices are `< n`, slot references are `< m`, and CNOT's control and target
are distinct. -/
def Gate.wf (n m : ℕ) : Gate → Prop
  | rotation _ w p => w < n ∧ p < m
  | hadamard w => w < n
  | pauliX w => w < n
  | pauliY w => w < n
  | pauliZ w => w < n
  | cnot c t => c < n ∧ t < n ∧ c ≠ t
  | phaseShift w p => w < n ∧ p < m
  | rot3 w p1 p2 p3 => w < n ∧ p1 < m ∧ p2 < m ∧ p3 < m

/-- Well-formedness of a circuit: every gate is well-formed and the measured
wire exists. -/
def Circuit.wf (c : Circuit) : Prop :=
  (∀ g ∈ c.gates, g.wf c.wires c.params) ∧ c.obsWire < c.wires

/-- Apply a gate list in order (order is significant: it is the product of
unitaries applied to the initial state). -/
def applyGates (gs : List Gate) (v : ℕ → ℝ) (ψ : QState) : QState :=
  match gs with
  | [] => ψ
  | g :: rest => applyGates rest v (g.apply v ψ)

/-- Modelled from the spec: the State Simulator contract (spec §4.1)
`evaluate(circuit, parameter_values) -> expectation_value`, absent from the
repository's source: initialize the all-zero register, apply each gate in
sequence, read the Pauli-Z expectation on the measured wire. -/
def evaluate (c : Circuit) (v : ℕ → ℝ) : ℝ :=
  expvalZ c.wires c.obsWire (applyGates c.gates v initState)

/-- Errors of circuit construction/binding (spec §7). -/
inductive CircuitError where
  | arityMismatch
  | wireOutOfRange
deriving DecidableEq

/-- A circuit together with concrete values bound to its parameter slots. -/
structure BoundCircuit where
  circuit : Circuit
  values : List ℝ

/-- Boolean check that a gate's wire indices all lie in `[0, n)`. -/
def Gate.wiresOk (n : ℕ) : Gate → Bool
  | rotation _ w _ => decide (w < n)
  | hadamard w => decide (w < n)
  | pauliX w => decide (w < n)
  | pauliY w => decide (w < n)
  | pauliZ w => decide (w < n)
  | cnot c t => decide (c < n) && decide (t < n)
  | phaseShift w _ => decide (w < n)
  | rot3 w _ _ _ => decide (w < n)

/-- Modelled from the spec: the Circuit Representation's
`bind(values) -> BoundCircuit` contract (spec §4.2), absent from the
repository's source: validate that `values.length` equals the number of
free-parameter slots (`ArityMismatch` otherwise), then that every referenced
wire index is within `[0, wires)` (`WireOutOfRange` otherwise). -/
def Circuit.bind (c : Circuit) (values : List ℝ) : Except CircuitError BoundCircuit :=
  if values.length = c.params then
    if c.gates.all (Gate.wiresOk c.wires) then Except.ok ⟨c, values⟩
    else Except.error CircuitError.wireOutOfRange
  else Except.error CircuitError.arityMismatch

/-- Whether a gate reads parameter slot `i`. -/
def Gate.usesSlot : Gate → ℕ → Bool
  | rotation _ _ p, i => p == i
  | phaseShift _ p, i => p == i
  | rot3 _ p1 p2 p3, i => p1 == i || p2 == i || p3 == i
  | _, _ => false

/-- The parameter-shift scale constant `a`, determined solely by the gate's
kind; `1/2` for the standard rotation-like parametrized gates used here. -/
def Gate.shiftScale : Gate → ℝ
  | rotation _ _ _ => 1 / 2
  | phaseShift _ _ => 1 / 2
  | rot3 _ _ _ _ => 1 / 2
  | _ => 0

/-- The parameter-shift amount `s`, determined solely by the gate's kind;
`π/2` for the standard rotation-like parametrized gates used here. -/
def Gate.shiftAmount : Gate → ℝ
  | rotation _ _ _ => Real.pi / 2
  | phaseShift _ _ => Real.pi / 2
  | rot3 _ _ _ _ => Real.pi / 2
  | _ => 0

/-- Modelled from the spec: the Parameter-Shift Differentiator contract
(spec §4.3), absent from the repository's source: for a requested slot `i`,
evaluate the circuit at the two parameter vectors with component `i` shifted
by `±s` and scale the difference by `a`, where `(a, s)` are read off the gate
bound to slot `i`; an unused slot has gradient exactly zero.  (The spec's
extension to several gates sharing one slot is flagged in spec §9 as an
unconfirmed assumption and no circuit of the notebook uses it; here each slot
is bound to the first gate that reads it.) -/
def gradient (c : Circuit) (v : ℕ → ℝ) (i : ℕ) : ℝ :=
  match c.gates.find? (fun g => g.usesSlot i) with
  | none => 0
  | some g => g.shiftScale *
      (evaluate c (Function.update v i (v i + g.shiftAmount))
        - evaluate c (Function.update v i (v i - g.shiftAmount)))

/-- Modelled from the spec: the Gradient-Descent Optimizer (spec §4.4),
absent from the repository's source.  Its whole state is the fixed learning
rate: "no additional internal memory for plain gradient descent". -/
structure GradientDescentOptimizer where
  learning_rate : ℝ

/-- Modelled from the spec: the optimizer's
`step(objective_function, current_parameters) -> updated_parameters` contract
(spec §4.4): `updated = current - learning_rate * gradient`, elementwise; the
objective's gradient function (the Differentiator's output, chain-ruled
through any classical post-processing) is passed in as `grad`. -/
def GradientDescentOptimizer.step (opt : GradientDescentOptimizer)
    (grad : (ℕ → ℝ) → ℕ → ℝ) (v : ℕ → ℝ) : ℕ → ℝ :=
  fun j => v j - opt.learning_rate * grad v j

/-! ## Norm invariants -/

/-- Every well-formed gate preserves the squared norm of the register. -/
lemma stateNormSq_gate {n m : ℕ} {g : Gate} (hg : g.wf n m) (v : ℕ → ℝ)
    (ψ : QState) : stateNormSq n (g.apply v ψ) = stateNormSq n ψ := by
  cases g with
  | rotation ax w p =>
      cases ax
      · exact stateNormSq_apply1 hg.1 (unitary2_rxMat _) ψ
      · exact stateNormSq_apply1 hg.1 (unitary2_ryMat _) ψ
      · exact stateNormSq_apply1 hg.1 (unitary2_rzMat _) ψ
  | hadamard w => exact stateNormSq_apply1 hg unitary2_hadMat ψ
  | pauliX w => exact stateNormSq_apply1 hg unitary2_pxMat ψ
  | pauliY w => exact stateNormSq_apply1 hg unitary2_pyMat ψ
  | pauliZ w => exact stateNormSq_apply1 hg unitary2_pzMat ψ
  | cnot c t => exact stateNormSq_applyCNOT hg.1 hg.2.1 hg.2.2 ψ
  | phaseShift w p => exact stateNormSq_apply1 hg.1 (unitary2_phaseMat _) ψ
  | rot3 w p1 p2 p3 => exact stateNormSq_apply1 hg.1 (unitary2_rotMat _ _ _) ψ

/-- A list of well-formed gates preserves the squared norm of the register. -/
lemma stateNormSq_applyGates {n m : ℕ} {gs : List Gate}
    (hgs : ∀ g ∈ gs, g.wf n m) (v : ℕ → ℝ) (ψ : QState) :
    stateNormSq n (applyGates gs v ψ) = stateNormSq n ψ := by
  induction gs generalizing ψ with
  | nil => rfl
  | cons g rest ih =>
      have h1 : g.wf n m := hgs g (List.mem_cons_self g rest)
      have h2 : ∀ g' ∈ rest, g'.wf n m := fun g' hg' => hgs g' (List.mem_cons_of_mem g hg')
      calc stateNormSq n (applyGates (g :: rest) v ψ)
          = stateNormSq n (applyGates rest v (g.apply v ψ)) := rfl
        _ = stateNormSq n (g.apply v ψ) := ih h2 _
        _ = stateNormSq n ψ := stateNormSq_gate h1 v ψ

/-- The all-zero basis state has amplitude 1 at index 0 and 0 elsewhere, and
is normalized. -/
lemma stateNormSq_initState (n : ℕ) : stateNormSq n initState = 1 := by
  unfold stateNormSq initState
  rw [Finset.sum_eq_single 0]
  · norm_num
  · intro i _ hi
    simp [hi]
  · intro h0
    exact absurd (Finset.mem_range.mpr (Nat.pos_pow_of_pos n (by norm_num))) h0

/-- The Pauli-Z expectation is bounded above by the squared norm. -/
lemma expvalZ_le_normSq (n wz : ℕ) (ψ : QState) :
    expvalZ n wz ψ ≤ stateNormSq n ψ := by
  unfold expvalZ stateNormSq
  refine Finset.sum_le_sum fun i _ => ?_
  by_cases h : bitOf wz i
  · simp only [h, if_true]
    nlinarith [Complex.normSq_nonneg (ψ i)]
  · simp [h]

/-- The Pauli-Z expectation is bounded below by minus the squared norm. -/
lemma neg_normSq_le_expvalZ (n wz : ℕ) (ψ : QState) :
    -stateNormSq n ψ ≤ expvalZ n wz ψ := by
  unfold expvalZ stateNormSq
  rw [← Finset.sum_neg_distrib]
  refine Finset.sum_le_sum fun i _ => ?_
  by_cases h : bitOf wz i
  · simp [h]
  · simp only [h, Bool.false_eq_true, if_false]
    nlinarith [Complex.normSq_nonneg (ψ i)]

/-- The expectation value of a well-formed circuit always lies in `[-1, 1]`. -/
lemma evaluate_mem_Icc {c : Circuit} (hc : c.wf) (v : ℕ → ℝ) :
    -1 ≤ evaluate c v ∧ evaluate c v ≤ 1 := by
  unfold evaluate
  have hnorm : stateNormSq c.wires (applyGates c.gates v initState) = 1 := by
    rw [stateNormSq_applyGates hc.1 v initState, stateNormSq_initState]
  constructor
  · have := neg_normSq_le_expvalZ c.wires c.obsWire (applyGates c.gates v initState)
    rw [hnorm] at this
    exact this
  · have := expvalZ_le_normSq c.wires c.obsWire (applyGates c.gates v initState)
    rw [hnorm] at this
    exact this

/-! ## Circuits of the notebook (translated from the source) -/

/-- The notebook's example circuit (source cell 6). -/
def tutorialCircuit : Circuit where
  wires := 2
  params := 2
  gates := [Gate.hadamard 1, Gate.rotation RotAxis.X 0 0,
    Gate.rotation RotAxis.X 1 1, Gate.cnot 0 1]
  obsWire := 0

lemma evaluate_tutorialCircuit (v : ℕ → ℝ) :
    evaluate tutorialCircuit v = Real.cos (v 0) := by
  unfold evaluate tutorialCircuit
  simp only [applyGates, Gate.apply, rotAxisMat]
  unfold expvalZ
  rw [show (2:ℕ) ^ 2 = 4 from rfl]
  rw [Finset.sum_range_succ, Finset.sum_range_succ, Finset.sum_range_succ,
    Finset.sum_range_succ, Finset.sum_range_zero]
  norm_num [applyCNOT, apply1, bitOf, setBit, hadMat, rxMat, initState,
    -Complex.ofReal_cos, -Complex.ofReal_sin, -Complex.ofReal_inv]
  simp only [Complex.normSq_apply, Complex.add_re, Complex.add_im, Complex.mul_re,
    Complex.mul_im, Complex.sub_re, Complex.sub_im, Complex.neg_re, Complex.neg_im,
    Complex.ofReal_re, Complex.ofReal_im, Complex.I_re, Complex.I_im]
  have hr : ((Real.sqrt 2)⁻¹ : ℝ) ^ 2 = 1 / 2 := by
    rw [inv_pow, Real.sq_sqrt (by norm_num)]
    norm_num
  have h2 : Real.sin (v 1 / 2) ^ 2 + Real.cos (v 1 / 2) ^ 2 = 1 :=
    Real.sin_sq_add_cos_sq _
  have hcos : Real.cos (v 0 / 2) ^ 2 - Real.sin (v 0 / 2) ^ 2 = Real.cos (v 0) := by
    rw [← Real.cos_two_mul']
    congr 1
    ring
  linear_combination
    (2 * (Real.cos (v 0 / 2) ^ 2 - Real.sin (v 0 / 2) ^ 2)) * hr
    + (2 * ((Real.sqrt 2)⁻¹ : ℝ) ^ 2
        * (Real.cos (v 0 / 2) ^ 2 - Real.sin (v 0 / 2) ^ 2)) * h2
    + hcos

/-- The valuation packing the circuit arguments `(θ1, θ2)` into the two
positional parameter slots. -/
def vals2 (a b : ℝ) : ℕ → ℝ := fun p => if p = 0 then a else if p = 1 then b else 0

/-- The parameter-shift gradient of the example circuit in its first slot is
`-sin θ1`, the exact partial derivative. -/
lemma gradient_tutorialCircuit_zero (v : ℕ → ℝ) :
    gradient tutorialCircuit v 0 = -Real.sin (v 0) := by
  have hstep : gradient tutorialCircuit v 0
      = (1 / 2) * (evaluate tutorialCircuit (Function.update v 0 (v 0 + Real.pi / 2))
        - evaluate tutorialCircuit (Function.update v 0 (v 0 - Real.pi / 2))) := rfl
  rw [hstep, evaluate_tutorialCircuit, evaluate_tutorialCircuit,
    Function.update_same, Function.update_same, Real.cos_add, Real.cos_sub,
    Real.cos_pi_div_two, Real.sin_pi_div_two]
  ring

/-- The parameter-shift gradient of the example circuit in its second slot
vanishes identically. -/
lemma gradient_tutorialCircuit_one (v : ℕ → ℝ) :
    gradient tutorialCircuit v 1 = 0 := by
  have hstep : gradient tutorialCircuit v 1
      = (1 / 2) * (evaluate tutorialCircuit (Function.update v 1 (v 1 + Real.pi / 2))
        - evaluate tutorialCircuit (Function.update v 1 (v 1 - Real.pi / 2))) := rfl
  rw [hstep, evaluate_tutorialCircuit, evaluate_tutorialCircuit,
    Function.update_noteq (by norm_num), Function.update_noteq (by norm_num)]
  ring

/-- The example circuit is well-formed. -/
lemma tutorialCircuit_wf : tutorialCircuit.wf := by
  refine ⟨?_, by norm_num [tutorialCircuit]⟩
  intro g hg
  simp only [tutorialCircuit, List.mem_cons, List.not_mem_nil, or_false] at hg
  rcases hg with h | h | h | h <;> subst h <;> norm_num [Gate.wf, tutorialCircuit]

/-! ## Determinism: evaluation depends only on the slot values -/

/-- A well-formed gate's action depends only on the values of the circuit's
parameter slots. -/
lemma gate_apply_congr {n m : ℕ} {g : Gate} (hg : g.wf n m) {v u : ℕ → ℝ}
    (h : ∀ p, p < m → v p = u p) : g.apply v = g.apply u := by
  cases g with
  | rotation ax w p => simp only [Gate.apply, h p hg.2]
  | hadamard w => rfl
  | pauliX w => rfl
  | pauliY w => rfl
  | pauliZ w => rfl
  | cnot c t => rfl
  | phaseShift w p => simp only [Gate.apply, h p hg.2]
  | rot3 w p1 p2 p3 =>
      simp only [Gate.apply, h p1 hg.2.1, h p2 hg.2.2.1, h p3 hg.2.2.2]

/-- A list of well-formed gates acts identically under two valuations that
agree on the circuit's parameter slots. -/
lemma applyGates_congr {n m : ℕ} {gs : List Gate} (hgs : ∀ g ∈ gs, g.wf n m)
    {v u : ℕ → ℝ} (h : ∀ p, p < m → v p = u p) (ψ : QState) :
    applyGates gs v ψ = applyGates gs u ψ := by
  induction gs generalizing ψ with
  | nil => rfl
  | cons g rest ih =>
      have h1 : g.wf n m := hgs g (List.mem_cons_self g rest)
      have h2 : ∀ g' ∈ rest, g'.wf n m := fun g' hg' => hgs g' (List.mem_cons_of_mem g hg')
      show applyGates rest v (g.apply v ψ) = applyGates rest u (g.apply u ψ)
      rw [gate_apply_congr h1 h, ih h2]

/-- Evaluation of a well-formed circuit depends only on the values bound to
its parameter slots. -/
lemma evaluate_congr {c : Circuit} (hc : c.wf) {v u : ℕ → ℝ}
    (h : ∀ p, p < c.params → v p = u p) : evaluate c v = evaluate c u := by
  unfold evaluate
  rw [applyGates_congr hc.1 h]

/-- A gate that reads slot `i` forces `i` to be a genuine slot of the
circuit. -/
lemma usesSlot_lt {n m : ℕ} {g : Gate} (hg : g.wf n m) {i : ℕ}
    (h : g.usesSlot i) : i < m := by
  cases g with
  | rotation ax w p =>
      have : p = i := by simpa [Gate.usesSlot] using h
      subst this
      exact hg.2
  | phaseShift w p =>
      have : p = i := by simpa [Gate.usesSlot] using h
      subst this
      exact hg.2
  | rot3 w p1 p2 p3 =>
      have : (p1 = i ∨ p2 = i) ∨ p3 = i := by simpa [Gate.usesSlot] using h
      rcases this with (h1 | h1) | h1 <;> subst h1
      · exact hg.2.1
      · exact hg.2.2.1
      · exact hg.2.2.2
  | hadamard w => simp [Gate.usesSlot] at h
  | pauliX w => simp [Gate.usesSlot] at h
  | pauliY w => simp [Gate.usesSlot] at h
  | pauliZ w => simp [Gate.usesSlot] at h
  | cnot c t => simp [Gate.usesSlot] at h

/-- The parameter-shift gradient of a well-formed circuit depends only on the
values bound to its parameter slots. -/
lemma gradient_congr {c : Circuit} (hc : c.wf) {v u : ℕ → ℝ}
    (h : ∀ p, p < c.params → v p = u p) (i : ℕ) :
    gradient c v i = gradient c u i := by
  unfold gradient
  cases hfind : c.gates.find? (fun g => g.usesSlot i) with
  | none => rfl
  | some g =>
      have hmem : g ∈ c.gates := List.mem_of_find?_eq_some hfind
      have huses : g.usesSlot i := by
        have := List.find?_some hfind
        simpa using this
      have hi : i < c.params := usesSlot_lt (hc.1 g hmem) huses
      have hvu : v i = u i := h i hi
      show g.shiftScale *
          (evaluate c (Function.update v i (v i + g.shiftAmount))
            - evaluate c (Function.update v i (v i - g.shiftAmount)))
        = g.shiftScale *
          (evaluate c (Function.update u i (u i + g.shiftAmount))
            - evaluate c (Function.update u i (u i - g.shiftAmount)))
      have hcongr : ∀ x : ℝ,
          evaluate c (Function.update v i x) = evaluate c (Function.update u i x) := by
        intro x
        refine evaluate_congr hc fun p hp => ?_
        by_cases hpi : p = i
        · subst hpi
          rw [Function.update_same, Function.update_same]
        · rw [Function.update_noteq hpi, Function.update_noteq hpi]
          exact h p hp
      rw [hvu, hcongr, hcongr]

/-! ## QGAN circuits of the notebook (translated from the source) -/

/-- Fixed angle `phi = π/6` of the "real data" circuit (source cell 35). -/
def phiConst : ℝ := Real.pi / 6

/-- Fixed angle `theta = π/2` of the "real data" circuit (source cell 35). -/
def thetaConst : ℝ := Real.pi / 2

/-- Fixed angle `omega = π/7` of the "real data" circuit (source cell 35). -/
def omegaConst : ℝ := Real.pi / 7

/-- `real_disc_circuit` (source cells 27, 29 and 31): `Rot(φ,θ,ω)` on wire 0
followed by the discriminator ansatz on wires 0 and 2, measuring Pauli-Z on
wire 2.  Slots 0,1,2 hold `(φ,θ,ω)`; slots 3..11 hold the nine discriminator
weights `disc_weights[0..8]`. -/
def realDiscCircuit : Circuit where
  wires := 3
  params := 12
  gates := [Gate.rot3 0 0 1 2,
    Gate.rotation RotAxis.X 0 3, Gate.rotation RotAxis.X 2 4,
    Gate.rotation RotAxis.Y 0 5, Gate.rotation RotAxis.Y 2 6,
    Gate.rotation RotAxis.Z 0 7, Gate.rotation RotAxis.Z 2 8,
    Gate.cnot 1 2,
    Gate.rotation RotAxis.X 2 9, Gate.rotation RotAxis.Y 2 10,
    Gate.rotation RotAxis.Z 2 11]
  obsWire := 2

/-- `gen_disc_circuit` (source cells 29 and 31): the generator ansatz on
wires 0 and 1 (slots 0..8 = `gen_weights`), then the discriminator ansatz on
wires 0 and 2 (slots 9..17 = `disc_weights`), measuring Pauli-Z on wire 2. -/
def genDiscCircuit : Circuit where
  wires := 3
  params := 18
  gates := [
    Gate.rotation RotAxis.X 0 0, Gate.rotation RotAxis.X 1 1,
    Gate.rotation RotAxis.Y 0 2, Gate.rotation RotAxis.Y 1 3,
    Gate.rotation RotAxis.Z 0 4, Gate.rotation RotAxis.Z 1 5,
    Gate.cnot 0 1,
    Gate.rotation RotAxis.X 0 6, Gate.rotation RotAxis.Y 0 7,
    Gate.rotation RotAxis.Z 0 8,
    Gate.rotation RotAxis.X 0 9, Gate.rotation RotAxis.X 2 10,
    Gate.rotation RotAxis.Y 0 11, Gate.rotation RotAxis.Y 2 12,
    Gate.rotation RotAxis.Z 0 13, Gate.rotation RotAxis.Z 2 14,
    Gate.cnot 1 2,
    Gate.rotation RotAxis.X 2 15, Gate.rotation RotAxis.Y 2 16,
    Gate.rotation RotAxis.Z 2 17]
  obsWire := 2

/-- The `real_disc_circuit` is well-formed. -/
lemma realDiscCircuit_wf : realDiscCircuit.wf := by
  refine ⟨?_, by norm_num [realDiscCircuit]⟩
  intro g hg
  simp only [realDiscCircuit, List.mem_cons, List.not_mem_nil, or_false] at hg
  rcases hg with h | h | h | h | h | h | h | h | h | h | h <;> subst h <;>
    norm_num [Gate.wf, realDiscCircuit]

/-- The `gen_disc_circuit` is well-formed. -/
lemma genDiscCircuit_wf : genDiscCircuit.wf := by
  refine ⟨?_, by norm_num [genDiscCircuit]⟩
  intro g hg
  simp only [genDiscCircuit, List.mem_cons, List.not_mem_nil, or_false] at hg
  rcases hg with h | h | h | h | h | h | h | h | h | h | h | h | h | h | h | h
    | h | h | h | h <;> subst h <;> norm_num [Gate.wf, genDiscCircuit]

/-- The valuation of `real_disc_circuit`: the notebook's fixed `(φ,θ,ω)`
followed by the discriminator weights. -/
def realDiscVals (dw : ℕ → ℝ) : ℕ → ℝ := fun p =>
  if p = 0 then phiConst else if p = 1 then thetaConst
  else if p = 2 then omegaConst else dw (p - 3)

/-- The valuation of `gen_disc_circuit`: generator weights then discriminator
weights. -/
def genDiscVals (gw dw : ℕ → ℝ) : ℕ → ℝ := fun p =>
  if p < 9 then gw p else dw (p - 9)

/-- `prob_real_true` (source cell 33): the discriminator's Pauli-Z output on
real data, mapped to a probability by `(x + 1) / 2`.  The source reads the
fixed angles and the generator weights from the enclosing scope; they are
explicit arguments here. -/
def prob_real_true (dw : ℕ → ℝ) : ℝ :=
  (evaluate realDiscCircuit (realDiscVals dw) + 1) / 2

/-- `prob_fake_true` (source cell 33): the discriminator's Pauli-Z output on
generated data, mapped to a probability by `(x + 1) / 2`. -/
def prob_fake_true (gw dw : ℕ → ℝ) : ℝ :=
  (evaluate genDiscCircuit (genDiscVals gw dw) + 1) / 2

/-- `disc_cost` (source cell 33); the source reads `gen_weights` from the
enclosing scope, made an explicit argument here. -/
def disc_cost (gw dw : ℕ → ℝ) : ℝ :=
  prob_fake_true gw dw - prob_real_true dw

/-! ## Rotation inverses -/

/-- Negating the angle of a rotation gate gives the conjugate transpose of
its matrix. -/
lemma rotAxisMat_neg_dagger (ax : RotAxis) (θ : ℝ) (r k : Bool) :
    rotAxisMat ax (-θ) r k = (starRingEnd ℂ) (rotAxisMat ax θ k r) := by
  cases ax with
  | X =>
      cases r <;> cases k <;>
        simp only [rotAxisMat, rxMat, neg_div, Real.cos_neg, Real.sin_neg,
          Complex.ofReal_neg, map_neg, map_mul, Complex.conj_I, Complex.conj_ofReal,
          Bool.false_eq_true, Bool.true_eq_false, reduceIte] <;>
        ring
  | Y =>
      cases r <;> cases k <;>
        simp only [rotAxisMat, ryMat, neg_div, Real.cos_neg, Real.sin_neg,
          Complex.ofReal_neg, map_neg, Complex.conj_ofReal] <;>
        ring
  | Z =>
      cases r <;> cases k
      · show Complex.exp ((-(-θ / 2) : ℝ) * Complex.I)
            = (starRingEnd ℂ) (Complex.exp ((-(θ / 2) : ℝ) * Complex.I))
        rw [← Complex.exp_conj, map_mul, Complex.conj_I, Complex.conj_ofReal]
        congr 1
        push_cast
        ring
      · simp [rotAxisMat, rzMat]
      · simp [rotAxisMat, rzMat]
      · show Complex.exp (((-θ / 2) : ℝ) * Complex.I)
            = (starRingEnd ℂ) (Complex.exp (((θ / 2) : ℝ) * Complex.I))
        rw [← Complex.exp_conj, map_mul, Complex.conj_I, Complex.conj_ofReal]
        congr 1
        push_cast
        ring

/-- A rotation gate's unitarity. -/
lemma unitary2_rotAxisMat (ax : RotAxis) (θ : ℝ) : Unitary2 (rotAxisMat ax θ) := by
  cases ax
  · exact unitary2_rxMat θ
  · exact unitary2_ryMat θ
  · exact unitary2_rzMat θ

/-- A rotation by `θ` followed by a rotation by `-θ` about the same axis is
the identity matrix. -/
lemma rotAxisMat_neg_mul (ax : RotAxis) (θ : ℝ) :
    mul2 (rotAxisMat ax (-θ)) (rotAxisMat ax θ) = id2 := by
  funext r c
  have hu := unitary2_rotAxisMat ax θ r c
  show rotAxisMat ax (-θ) r false * rotAxisMat ax θ false c
      + rotAxisMat ax (-θ) r true * rotAxisMat ax θ true c = id2 r c
  rw [rotAxisMat_neg_dagger ax θ r false, rotAxisMat_neg_dagger ax θ r true]
  rw [mul_comm ((starRingEnd ℂ) (rotAxisMat ax θ false r)) _,
    mul_comm ((starRingEnd ℂ) (rotAxisMat ax θ true r)) _] at hu ⊢
  rw [hu]
  rfl

/-! ## Claim theorems -/

/-- **C1.** For every circuit, every parameter vector, and every requested
parameter index `i` whose slot is bound to a standard single-qubit rotation
gate, the gradient operation returns `a * (f(v_plus) - f(v_minus))` with
`f = evaluate`, where `v_plus`/`v_minus` differ from `v` only in component
`i`, shifted by `+s`/`-s`, and `a = 1/2`, `s = π/2` depend only on the gate's
kind — not on its axis, its wire, its position in the circuit, or the values
of the other parameters. -/
theorem c1_parameter_shift_rotation (c : Circuit) (v : ℕ → ℝ) (i : ℕ)
    (ax : RotAxis) (w p : ℕ)
    (hfind : c.gates.find? (fun g => g.usesSlot i) = some (Gate.rotation ax w p)) :
    gradient c v i
      = (1 / 2) * (evaluate c (Function.update v i (v i + Real.pi / 2))
        - evaluate c (Function.update v i (v i - Real.pi / 2))) := by
  unfold gradient
  rw [hfind]
  rfl

/-- Witness for **C1** at the notebook's circuit, slot 0 (the `RX(θ1)`
gate), parameters `(0, 0)`. -/
theorem c1_witness :
    tutorialCircuit.gates.find? (fun g => g.usesSlot 0)
        = some (Gate.rotation RotAxis.X 0 0)
      ∧ gradient tutorialCircuit (vals2 0 0) 0
        = (1 / 2) * (evaluate tutorialCircuit
              (Function.update (vals2 0 0) 0 (vals2 0 0 0 + Real.pi / 2))
            - evaluate tutorialCircuit
              (Function.update (vals2 0 0) 0 (vals2 0 0 0 - Real.pi / 2))) :=
  ⟨rfl, c1_parameter_shift_rotation tutorialCircuit (vals2 0 0) 0 RotAxis.X 0 0 rfl⟩

/-- **C2.** The optimizer's step returns exactly
`current - learning_rate * gradient`, elementwise; the optimizer value
carries no state besides its fixed learning rate, so the result is a pure
function of the current parameters, the learning rate, and the objective's
gradient function. -/
theorem c2_optimizer_step (opt : GradientDescentOptimizer)
    (grad : (ℕ → ℝ) → ℕ → ℝ) (v : ℕ → ℝ) (j : ℕ) :
    opt.step grad v j = v j - opt.learning_rate * grad v j := rfl

/-- **C3.** The notebook's two-wire circuit evaluates to `1` at
`(θ1, θ2) = (0, 0)`, and its gradient there with respect to `θ1` is `0`
within `1e-9` (it is exactly `0`). -/
theorem c3_evaluate_and_gradient_at_zero :
    evaluate tutorialCircuit (vals2 0 0) = 1
      ∧ |gradient tutorialCircuit (vals2 0 0) 0| ≤ 1e-9 := by
  constructor
  · rw [evaluate_tutorialCircuit]
    norm_num [vals2]
  · rw [gradient_tutorialCircuit_zero]
    norm_num [vals2]

/-- **C4.** During evaluation the register starts as the all-zero basis
state (amplitude 1 at index 0, 0 elsewhere) and, for a well-formed circuit,
stays normalized to unit norm after every gate application (i.e. after every
prefix of the gate list); evaluation builds the register from `initState`
within the call, so nothing persists across calls. -/
theorem c4_register_invariants (c : Circuit) (v : ℕ → ℝ) (hc : c.wf) :
    (initState 0 = 1 ∧ ∀ i : ℕ, i ≠ 0 → initState i = 0)
      ∧ ∀ pre suf : List Gate, c.gates = pre ++ suf →
          stateNormSq c.wires (applyGates pre v initState) = 1 := by
  refine ⟨⟨rfl, fun i hi => by simp [initState, hi]⟩, ?_⟩
  intro pre suf hsplit
  have hpre : ∀ g ∈ pre, g.wf c.wires c.params := by
    intro g hg
    exact hc.1 g (by rw [hsplit]; exact List.mem_append_left _ hg)
  rw [stateNormSq_applyGates hpre v initState, stateNormSq_initState]

/-- Witness for **C4** at the notebook's circuit after its first gate. -/
theorem c4_witness :
    tutorialCircuit.wf
      ∧ stateNormSq tutorialCircuit.wires
          (applyGates [Gate.hadamard 1] (fun _ => 0) initState) = 1 :=
  ⟨tutorialCircuit_wf,
    (c4_register_invariants tutorialCircuit (fun _ => 0) tutorialCircuit_wf).2
      [Gate.hadamard 1]
      [Gate.rotation RotAxis.X 0 0, Gate.rotation RotAxis.X 1 1, Gate.cnot 0 1] rfl⟩

/-- **C5.** For every supported single-qubit rotation gate (any axis), every
angle `θ`, and every register state: applying the rotation with parameter `θ`
then with parameter `-θ` restores the state exactly, and in particular every
Pauli-Z expectation value read afterwards agrees with the one read without
the rotation pair, within `1e-9`. -/
theorem c5_rotation_round_trip (ax : RotAxis) (θ : ℝ) (w : ℕ) (ψ : QState) :
    apply1 (rotAxisMat ax (-θ)) w (apply1 (rotAxisMat ax θ) w ψ) = ψ
      ∧ ∀ n wz : ℕ,
          |expvalZ n wz (apply1 (rotAxisMat ax (-θ)) w (apply1 (rotAxisMat ax θ) w ψ))
            - expvalZ n wz ψ| ≤ 1e-9 := by
  have hstate : apply1 (rotAxisMat ax (-θ)) w (apply1 (rotAxisMat ax θ) w ψ) = ψ := by
    rw [apply1_apply1, rotAxisMat_neg_mul, apply1_id2]
  refine ⟨hstate, fun n wz => ?_⟩
  rw [hstate]
  norm_num

/-- **C6.** `bind` fails with `ArityMismatch` exactly when the supplied
value list's length differs from the circuit's free-parameter count; the
error is the synchronous result of the call, and on success the bound
circuit carries precisely the given circuit and values (no partial result on
failure, as the result is either one error or one bound circuit). -/
theorem c6_bind_arity (c : Circuit) (values : List ℝ) :
    (c.bind values = Except.error CircuitError.arityMismatch
        ↔ values.length ≠ c.params)
      ∧ ∀ bc : BoundCircuit, c.bind values = Except.ok bc →
          values.length = c.params ∧ bc.circuit = c ∧ bc.values = values := by
  unfold Circuit.bind
  by_cases h : values.length = c.params
  · rw [if_pos h]
    by_cases hw : c.gates.all (Gate.wiresOk c.wires)
    · rw [if_pos hw]
      refine ⟨⟨fun heq => absurd heq (by simp), fun hne => absurd h hne⟩, ?_⟩
      intro bc heq
      have hbc : bc = ⟨c, values⟩ := by
        injection heq with h1
        exact h1.symm
      subst hbc
      exact ⟨h, rfl, rfl⟩
    · rw [if_neg hw]
      refine ⟨⟨fun heq => ?_, fun hne => absurd h hne⟩, ?_⟩
      · injection heq with h1
        exact absurd h1 (by simp)
      · intro bc heq
        exact absurd heq (by simp)
  · rw [if_neg h]
    refine ⟨⟨fun _ => h, fun _ => rfl⟩, ?_⟩
    intro bc heq
    exact absurd heq (by simp)

/-- **C7.** Evaluation and differentiation of a well-formed circuit are
deterministic functions of the circuit and the values bound to its parameter
slots: two valuations agreeing on every slot yield identical expectation
values and identical gradients at every index (no hidden state, no stochastic
sampling). -/
theorem c7_deterministic (c : Circuit) (hc : c.wf) (v u : ℕ → ℝ)
    (h : ∀ p, p < c.params → v p = u p) :
    evaluate c v = evaluate c u ∧ ∀ i, gradient c v i = gradient c u i :=
  ⟨evaluate_congr hc h, gradient_congr hc h⟩

/-- Witness for **C7** at the notebook's circuit: two valuations agreeing on
the two slots but differing elsewhere evaluate and differentiate equally. -/
theorem c7_witness :
    tutorialCircuit.wf
      ∧ (∀ p, p < tutorialCircuit.params →
          vals2 1 2 p = (fun q => if q = 0 then (1:ℝ) else if q = 1 then 2 else 37) p)
      ∧ evaluate tutorialCircuit (vals2 1 2)
          = evaluate tutorialCircuit
              (fun q => if q = 0 then (1:ℝ) else if q = 1 then 2 else 37)
      ∧ ∀ i, gradient tutorialCircuit (vals2 1 2) i
          = gradient tutorialCircuit
              (fun q => if q = 0 then (1:ℝ) else if q = 1 then 2 else 37) i := by
  have hagree : ∀ p, p < tutorialCircuit.params →
      vals2 1 2 p = (fun q => if q = 0 then (1:ℝ) else if q = 1 then 2 else 37) p := by
    intro p hp
    have hp2 : p < 2 := by simpa [tutorialCircuit] using hp
    interval_cases p <;> norm_num [vals2]
  exact ⟨tutorialCircuit_wf, hagree,
    (c7_deterministic tutorialCircuit tutorialCircuit_wf _ _ hagree).1,
    (c7_deterministic tutorialCircuit tutorialCircuit_wf _ _ hagree).2⟩

/-- **C9.** For every pair of angles, the notebook's example circuit
evaluates to `cos θ1` — independent of `θ2` — and its parameter-shift
partial derivative with respect to `θ2` is identically zero. -/
theorem c9_cos_theta1 (θ1 θ2 : ℝ) :
    evaluate tutorialCircuit (vals2 θ1 θ2) = Real.cos θ1
      ∧ gradient tutorialCircuit (vals2 θ1 θ2) 1 = 0 := by
  constructor
  · rw [evaluate_tutorialCircuit]
    norm_num [vals2]
  · exact gradient_tutorialCircuit_one _

/-- **C10.** For all discriminator and generator weights, `prob_real_true`
and `prob_fake_true` lie in `[0, 1]` — each is `(x + 1) / 2` of a Pauli-Z
expectation `x ∈ [-1, 1]` — and hence `disc_cost` lies in `[-1, 1]`. -/
theorem c10_probabilities_in_unit_interval (gw dw : ℕ → ℝ) :
    (0 ≤ prob_real_true dw ∧ prob_real_true dw ≤ 1)
      ∧ (0 ≤ prob_fake_true gw dw ∧ prob_fake_true gw dw ≤ 1)
      ∧ (-1 ≤ disc_cost gw dw ∧ disc_cost gw dw ≤ 1) := by
  have h1 := evaluate_mem_Icc realDiscCircuit_wf (realDiscVals dw)
  have h2 := evaluate_mem_Icc genDiscCircuit_wf (genDiscVals gw dw)
  unfold disc_cost prob_real_true prob_fake_true
  exact ⟨⟨by linarith [h1.1], by linarith [h1.2]⟩,
    ⟨by linarith [h2.1], by linarith [h2.2]⟩,
    by linarith [h1.2, h2.1], by linarith [h1.1, h2.2]⟩

/-- Witness for **C6**: binding the notebook's two-slot circuit to an empty
value list. -/
theorem c6_witness :
    (tutorialCircuit.bind [] = Except.error CircuitError.arityMismatch
        ↔ List.length ([] : List ℝ) ≠ tutorialCircuit.params)
      ∧ ∀ bc : BoundCircuit, tutorialCircuit.bind [] = Except.ok bc →
          List.length ([] : List ℝ) = tutorialCircuit.params
            ∧ bc.circuit = tutorialCircuit ∧ bc.values = [] :=
  c6_bind_arity tutorialCircuit []

end

end QML
